import Mathlib

/-
Verification of the reviewer-assignment engine of the auto-assign-reviewers
action (src/auto-assign-reviewers/index.js).

The glob matcher `matchPattern` is embedded by mirroring the regex string the
JavaScript builds: every character of the pattern other than the glob
wildcards is escaped by the source (so it is a literal), `**` becomes `.*`,
a lone `*` becomes `[^/]*`, and `?` becomes `[^/]`.  The compiled regex is
always `$`-anchored; when the pattern does not start with `/` the source
prepends `(^|/)`.  We compile the pattern into a token list and run a
backtracking matcher that decides whether the token sequence matches a whole
string, then test the token list against the appropriate set of start
positions exactly as `RegExp.test` would.

The engine (`run`) is embedded with the score map as an insertion-ordered
association list (mirroring a JavaScript `Map`), a stable descending
insertion sort (mirroring the stable `Array.prototype.sort` with comparator
`b[1] - a[1]`), and `jsSlice0` mirroring `Array.prototype.slice(0, end)`
including its negative-index behaviour.  Fields of a rule that may be a
missing (`undefined`) value, a scalar, or an array are modelled by `JSField`;
the `TypeError` thrown when `undefined` reaches `.replace`/`.toLowerCase`
(caught by the top level `try`, failing the whole action) is modelled by
`Except.error ()`.
-/

namespace AutoAssign

/-! ### Pattern matcher -/

/-- A token of the compiled glob regex: a literal character (every escaped or
ordinary character), `[^/]*` (from `*`), `[^/]` (from `?`), or `.*` (from
`**`). -/
inductive GlobTok where
  | lit (c : Char)
  | star
  | anyOne
  | globstar
deriving DecidableEq

/-- Compile a glob pattern (as a character list) into regex tokens, mirroring
the replacement pipeline of `matchPattern`: escape everything except `*`/`?`,
turn `**` (paired left to right, as the global regex replace does) into `.*`,
lone `*` into `[^/]*`, and `?` into `[^/]`. -/
def compileGlob : List Char → List GlobTok
  | [] => []
  | c :: rest =>
    if c == '*' then
      match rest with
      | [] => [GlobTok.star]
      | c2 :: rest2 =>
        if c2 == '*' then GlobTok.globstar :: compileGlob rest2
        else GlobTok.star :: compileGlob (c2 :: rest2)
    else if c == '?' then GlobTok.anyOne :: compileGlob rest
    else GlobTok.lit c :: compileGlob rest

/-- Fuel-indexed backtracking matcher: `toksMatchF f ts s` decides whether the
regex formed by concatenating the tokens `ts` matches the whole string `s`
(both ends anchored), provided `f` exceeds `ts.length + s.length` (every
recursive call shrinks that sum).  Structural recursion on the fuel keeps the
function kernel-computable. -/
def toksMatchF : Nat → List GlobTok → List Char → Bool
  | 0, _, _ => false
  | _ + 1, [], [] => true
  | _ + 1, [], _ :: _ => false
  | _ + 1, .lit _ :: _, [] => false
  | f + 1, .lit c :: ts, x :: xs => c == x && toksMatchF f ts xs
  | _ + 1, .anyOne :: _, [] => false
  | f + 1, .anyOne :: ts, x :: xs => !(x == '/') && toksMatchF f ts xs
  | f + 1, .star :: ts, [] => toksMatchF f ts []
  | f + 1, .star :: ts, x :: xs =>
    toksMatchF f ts (x :: xs) || (!(x == '/') && toksMatchF f (.star :: ts) xs)
  | f + 1, .globstar :: ts, [] => toksMatchF f ts []
  | f + 1, .globstar :: ts, x :: xs =>
    toksMatchF f ts (x :: xs) || toksMatchF f (.globstar :: ts) xs

/-- `toksMatch ts s` decides whether the token sequence `ts` matches the whole
string `s`.  Greediness is irrelevant to `RegExp.test`, so a complete
backtracking search is a faithful model of match existence. -/
def toksMatch (ts : List GlobTok) (s : List Char) : Bool :=
  toksMatchF (ts.length + s.length + 1) ts s

/-- `RegExp.test` for the regex `toks$` (no start anchor): some suffix of the
input is matched entirely by `toks`. -/
def searchTest (toks : List GlobTok) : List Char → Bool
  | [] => toksMatch toks []
  | c :: xs => toksMatch toks (c :: xs) || searchTest toks xs

/-- The `/` alternative of the prefix `(^|/)`: somewhere in the input there is
a `/` character and `toks` matches everything after it, up to the end. -/
def segAux (toks : List GlobTok) : List Char → Bool
  | [] => false
  | c :: xs => (c == '/' && toksMatch toks xs) || segAux toks xs

/-- `RegExp.test` for the regex `(^|/)toks$`: either `toks` matches the whole
input, or it matches the part after some `/`. -/
def segTest (toks : List GlobTok) (s : List Char) : Bool :=
  toksMatch toks s || segAux toks s

/-- `pattern.startsWith('/')`. -/
def startsWithSlash (p : String) : Bool :=
  match p.toList with
  | [] => false
  | c :: _ => c == '/'

/-- `matchPattern(filePath, pattern)` from src/auto-assign-reviewers/index.js:
compile the glob to a regex, prepend `(^|/)` when the pattern does not start
with `/`, append `$`, and test the file path. -/
def matchPattern (filePath pattern : String) : Bool :=
  let toks := compileGlob pattern.toList
  if startsWithSlash pattern then searchTest toks filePath.toList
  else segTest toks filePath.toList

/-- A pattern containing neither `*` nor `?`: every one of its characters is
compiled to a literal (all regex metacharacters are escaped by the source). -/
def wildcardFree (p : String) : Bool :=
  p.toList.all (fun c => !(c == '*') && !(c == '?'))

/-! ### Rule evaluation and resolution -/

/-- A configuration field as JavaScript sees it: missing (`undefined`), a
scalar string, or an array of strings. -/
inductive JSField where
  | undef
  | scalar (s : String)
  | arr (l : List String)

/-- One entry of `config.reviewers`. -/
structure Rule where
  patterns : JSField
  users : JSField

/-- `Array.isArray(x) ? x : [x]`: an array stays as is, anything else is
wrapped in a singleton — in particular `undefined` becomes `[undefined]`,
modelled as `[none]`. -/
def normalize : JSField → List (Option String)
  | .undef => [none]
  | .scalar s => [some s]
  | .arr l => l.map some

/-- `a.toLowerCase() === b.toLowerCase()` (per-character lowering). -/
def lowerEq (a b : String) : Bool :=
  a.toList.map Char.toLower == b.toList.map Char.toLower

/-- The inner pattern loop for one file: the first matching pattern stops the
search; calling `matchPattern` on `undefined` throws a `TypeError`. -/
def anyPatternMatches (file : String) : List (Option String) → Except Unit Bool
  | [] => .ok false
  | none :: _ => .error ()
  | some p :: rest =>
    if matchPattern file p then .ok true else anyPatternMatches file rest

/-- The file loop of one rule: `matched` becomes true on the first
(file, pattern) hit. -/
def ruleMatched (pats : List (Option String)) : List String → Except Unit Bool
  | [] => .ok false
  | f :: fs =>
    match anyPatternMatches f pats with
    | .error e => .error e
    | .ok true => .ok true
    | .ok false => ruleMatched pats fs

/-- `Map.prototype.get` with `|| 0`, on the insertion-ordered association
list modelling `reviewerScores`. -/
def mapGet : List (String × Nat) → String → Nat
  | [], _ => 0
  | (k', v) :: rest, k => if k' == k then v else mapGet rest k

/-- `Map.prototype.set`: replace in place when the key is present, append
otherwise. -/
def mapSet : List (String × Nat) → String → Nat → List (String × Nat)
  | [], k, v => [(k, v)]
  | (k', v') :: rest, k, v =>
    if k' == k then (k, v) :: rest else (k', v') :: mapSet rest k v

/-- The reviewer loop of a matched rule: skip the PR author
(case-insensitively), bump everyone else by one per occurrence; an
`undefined` reviewer throws on `.toLowerCase()`. -/
def addReviewers (author : String) :
    List (Option String) → List (String × Nat) → Except Unit (List (String × Nat))
  | [], scores => .ok scores
  | none :: _, _ => .error ()
  | some r :: rest, scores =>
    if lowerEq r author then addReviewers author rest scores
    else addReviewers author rest (mapSet scores r (mapGet scores r + 1))

/-- The rule loop of `run`: per rule, normalize the fields, decide whether the
rule matched, and if so add its reviewers to the score map. -/
def evalRules (files : List String) (author : String) :
    List Rule → List (String × Nat) → Except Unit (List (String × Nat))
  | [], scores => .ok scores
  | ru :: rest, scores =>
    match ruleMatched (normalize ru.patterns) files with
    | .error e => .error e
    | .ok false => evalRules files author rest scores
    | .ok true =>
      match addReviewers author (normalize ru.users) scores with
      | .error e => .error e
      | .ok scores2 => evalRules files author rest scores2

/-- Insert an entry into a list sorted by descending score, after every
strictly greater entry and before every tied one — the position a stable
descending sort gives the earliest-inserted entry. -/
def insertByScore (x : String × Nat) : List (String × Nat) → List (String × Nat)
  | [] => [x]
  | y :: ys => if y.2 > x.2 then y :: insertByScore x ys else x :: y :: ys

/-- The stable sort `entries.sort((a, b) => b[1] - a[1])` (stability is
mandated for `Array.prototype.sort`). -/
def sortScores : List (String × Nat) → List (String × Nat)
  | [] => []
  | x :: xs => insertByScore x (sortScores xs)

/-- `l.slice(0, m)`: for `m ≥ 0` the first `m` elements; for negative `m` the
end index counts from the end of the array, clamped at zero. -/
def jsSlice0 (l : List String) (m : Int) : List String :=
  if 0 ≤ m then l.take m.toNat else l.take (l.length - (-m).toNat)

/-- The engine of `run` after the changed files are fetched: score every rule,
and either sort/truncate the scores or fall back to the (filtered, truncated)
defaults when the score map is empty.  `defaults = none` models a
configuration without `defaults.reviewers`.  The value is the list the action
reports through `assigned-reviewers` (empty when nothing is requested);
`.error ()` is the top-level `catch` marking the action as failed. -/
def run (files : List String) (rules : List Rule) (defaults : Option (List String))
    (author : String) (maxR : Int) : Except Unit (List String) :=
  match evalRules files author rules [] with
  | .error e => .error e
  | .ok scores =>
    if scores.isEmpty then
      match defaults with
      | some ds => .ok (jsSlice0 (ds.filter (fun r => !(lowerEq r author))) maxR)
      | none => .ok []
    else
      .ok (jsSlice0 ((sortScores scores).map Prod.fst) maxR)

/-! ### Matcher lemmas -/

/-- The fuel is irrelevant once it exceeds `ts.length + s.length`. -/
lemma toksMatchF_congr : ∀ (f g : Nat) (ts : List GlobTok) (s : List Char),
    ts.length + s.length < f → ts.length + s.length < g →
    toksMatchF f ts s = toksMatchF g ts s := by
  intro f
  induction f with
  | zero => intro g ts s hf; exact absurd hf (Nat.not_lt_zero _)
  | succ f ih =>
    intro g ts s hf hg
    match g with
    | 0 => exact absurd hg (Nat.not_lt_zero _)
    | g + 1 =>
      match ts, s with
      | [], [] => rfl
      | [], x :: xs => rfl
      | .lit c :: ts, [] => rfl
      | .lit c :: ts, x :: xs =>
        simp only [toksMatchF]
        simp only [List.length_cons] at hf hg
        rw [ih g ts xs (by omega) (by omega)]
      | .anyOne :: ts, [] => rfl
      | .anyOne :: ts, x :: xs =>
        simp only [toksMatchF]
        simp only [List.length_cons] at hf hg
        rw [ih g ts xs (by omega) (by omega)]
      | .star :: ts, [] =>
        simp only [toksMatchF]
        simp only [List.length_cons, List.length_nil] at hf hg
        rw [ih g ts [] (by simp; omega) (by simp; omega)]
      | .star :: ts, x :: xs =>
        simp only [toksMatchF]
        simp only [List.length_cons] at hf hg
        rw [ih g ts (x :: xs) (by simp; omega) (by simp; omega),
          ih g (.star :: ts) xs (by simp; omega) (by simp; omega)]
      | .globstar :: ts, [] =>
        simp only [toksMatchF]
        simp only [List.length_cons, List.length_nil] at hf hg
        rw [ih g ts [] (by simp; omega) (by simp; omega)]
      | .globstar :: ts, x :: xs =>
        simp only [toksMatchF]
        simp only [List.length_cons] at hf hg
        rw [ih g ts (x :: xs) (by simp; omega) (by simp; omega),
          ih g (.globstar :: ts) xs (by simp; omega) (by simp; omega)]

/-- Any sufficient fuel computes `toksMatch`. -/
lemma toksMatchF_eq (f : Nat) (ts : List GlobTok) (s : List Char)
    (h : ts.length + s.length < f) : toksMatchF f ts s = toksMatch ts s :=
  toksMatchF_congr f (ts.length + s.length + 1) ts s h (by omega)

@[simp] lemma toksMatch_nil_nil : toksMatch [] [] = true := rfl

@[simp] lemma toksMatch_nil_cons (x : Char) (xs : List Char) :
    toksMatch [] (x :: xs) = false := rfl

@[simp] lemma toksMatch_lit_nil (c : Char) (ts : List GlobTok) :
    toksMatch (.lit c :: ts) [] = false := rfl

@[simp] lemma toksMatch_lit_cons (c : Char) (ts : List GlobTok) (x : Char) (xs : List Char) :
    toksMatch (.lit c :: ts) (x :: xs) = (c == x && toksMatch ts xs) := by
  show (c == x && toksMatchF ((GlobTok.lit c :: ts).length + (x :: xs).length) ts xs) = _
  rw [toksMatchF_eq _ _ _ (by simp only [List.length_cons]; omega)]

@[simp] lemma toksMatch_anyOne_nil (ts : List GlobTok) :
    toksMatch (.anyOne :: ts) [] = false := rfl

@[simp] lemma toksMatch_anyOne_cons (ts : List GlobTok) (x : Char) (xs : List Char) :
    toksMatch (.anyOne :: ts) (x :: xs) = (!(x == '/') && toksMatch ts xs) := by
  show (!(x == '/') && toksMatchF ((GlobTok.anyOne :: ts).length + (x :: xs).length) ts xs) = _
  rw [toksMatchF_eq _ _ _ (by simp only [List.length_cons]; omega)]

@[simp] lemma toksMatch_star_nil (ts : List GlobTok) :
    toksMatch (.star :: ts) [] = toksMatch ts [] := by
  show toksMatchF ((GlobTok.star :: ts).length + ([] : List Char).length) ts [] = _
  rw [toksMatchF_eq _ _ _ (by simp)]

@[simp] lemma toksMatch_star_cons (ts : List GlobTok) (x : Char) (xs : List Char) :
    toksMatch (.star :: ts) (x :: xs)
      = (toksMatch ts (x :: xs) || (!(x == '/') && toksMatch (.star :: ts) xs)) := by
  show (toksMatchF ((GlobTok.star :: ts).length + (x :: xs).length) ts (x :: xs)
      || (!(x == '/') && toksMatchF ((GlobTok.star :: ts).length + (x :: xs).length) (.star :: ts) xs)) = _
  rw [toksMatchF_eq _ _ _ (by simp only [List.length_cons]; omega),
    toksMatchF_eq _ _ _ (by simp only [List.length_cons]; omega)]

@[simp] lemma toksMatch_globstar_nil (ts : List GlobTok) :
    toksMatch (.globstar :: ts) [] = toksMatch ts [] := by
  show toksMatchF ((GlobTok.globstar :: ts).length + ([] : List Char).length) ts [] = _
  rw [toksMatchF_eq _ _ _ (by simp)]

@[simp] lemma toksMatch_globstar_cons (ts : List GlobTok) (x : Char) (xs : List Char) :
    toksMatch (.globstar :: ts) (x :: xs)
      = (toksMatch ts (x :: xs) || toksMatch (.globstar :: ts) xs) := by
  show (toksMatchF ((GlobTok.globstar :: ts).length + (x :: xs).length) ts (x :: xs)
      || toksMatchF ((GlobTok.globstar :: ts).length + (x :: xs).length) (.globstar :: ts) xs) = _
  rw [toksMatchF_eq _ _ _ (by simp only [List.length_cons]; omega),
    toksMatchF_eq _ _ _ (by simp only [List.length_cons]; omega)]

/-- A sequence of literal tokens matches exactly the corresponding string. -/
lemma toksMatch_map_lit : ∀ (l s : List Char),
    toksMatch (l.map GlobTok.lit) s = true ↔ s = l := by
  intro l
  induction l with
  | nil =>
    intro s
    cases s with
    | nil => simp
    | cons x xs => simp
  | cons c cs ih =>
    intro s
    cases s with
    | nil => simp
    | cons x xs =>
      simp only [List.map_cons, toksMatch_lit_cons, Bool.and_eq_true, beq_iff_eq, ih,
        List.cons.injEq]
      constructor
      · rintro ⟨rfl, rfl⟩; exact ⟨rfl, rfl⟩
      · rintro ⟨rfl, rfl⟩; exact ⟨rfl, rfl⟩

/-- `searchTest` holds exactly when some suffix is fully matched. -/
lemma searchTest_iff (toks : List GlobTok) :
    ∀ s : List Char, searchTest toks s = true ↔
      ∃ t, t <:+ s ∧ toksMatch toks t = true := by
  intro s
  induction s with
  | nil =>
    simp [searchTest, List.suffix_nil]
  | cons c xs ih =>
    simp only [searchTest, Bool.or_eq_true, ih]
    constructor
    · rintro (h | ⟨t, ht, hm⟩)
      · exact ⟨c :: xs, List.suffix_refl _, h⟩
      · exact ⟨t, ht.trans (List.suffix_cons c xs), hm⟩
    · rintro ⟨t, ht, hm⟩
      rcases List.suffix_cons_iff.mp ht with rfl | ht'
      · exact Or.inl hm
      · exact Or.inr ⟨t, ht', hm⟩

/-- `segAux` holds exactly when the tokens match everything after some `/`. -/
lemma segAux_iff (toks : List GlobTok) :
    ∀ s : List Char, segAux toks s = true ↔
      ∃ a b, s = a ++ '/' :: b ∧ toksMatch toks b = true := by
  intro s
  induction s with
  | nil =>
    simp only [segAux, Bool.false_eq_true, false_iff]
    rintro ⟨a, b, h, -⟩
    exact (List.cons_ne_nil '/' b) (List.append_eq_nil.mp h.symm).2
  | cons c xs ih =>
    simp only [segAux, Bool.or_eq_true, Bool.and_eq_true, beq_iff_eq, ih]
    constructor
    · rintro (⟨rfl, hm⟩ | ⟨a, b, rfl, hm⟩)
      · exact ⟨[], xs, rfl, hm⟩
      · exact ⟨c :: a, b, rfl, hm⟩
    · rintro ⟨a, b, he, hm⟩
      cases a with
      | nil =>
        rw [List.nil_append] at he
        injection he with h1 h2
        exact Or.inl ⟨h1, h2 ▸ hm⟩
      | cons a0 a' =>
        rw [List.cons_append] at he
        injection he with h1 h2
        exact Or.inr ⟨a', b, h2, hm⟩

/-- A wildcard-free pattern compiles to its own characters as literals. -/
lemma compileGlob_lits : ∀ l : List Char,
    (∀ c ∈ l, ¬c = '*' ∧ ¬c = '?') → compileGlob l = l.map GlobTok.lit := by
  intro l
  induction l with
  | nil => intro _; rfl
  | cons c rest ih =>
    intro h
    have hc := h c (List.mem_cons_self c rest)
    have hrest := fun d hd => h d (List.mem_cons_of_mem c hd)
    unfold compileGlob
    simp only [beq_iff_eq, if_neg hc.1, if_neg hc.2, List.map_cons]
    rw [ih hrest]

/-! ### Score-map lemmas -/

lemma mapSet_keys_mem (a : String) : ∀ (m : List (String × Nat)) (k : String) (v : Nat),
    a ∈ (mapSet m k v).map Prod.fst ↔ a ∈ m.map Prod.fst ∨ a = k := by
  intro m
  induction m with
  | nil => intro k v; simp [mapSet]
  | cons p rest ih =>
    intro k v
    obtain ⟨k', v'⟩ := p
    by_cases h : k' = k
    · subst h
      simp only [mapSet, beq_self_eq_true, if_true, List.map_cons, List.mem_cons]
      tauto
    · simp only [mapSet, beq_iff_eq, if_neg h, List.map_cons, List.mem_cons, ih]
      tauto

lemma mapSet_keys_nodup : ∀ (m : List (String × Nat)) (k : String) (v : Nat),
    (m.map Prod.fst).Nodup → ((mapSet m k v).map Prod.fst).Nodup := by
  intro m
  induction m with
  | nil => intro k v _; simp [mapSet]
  | cons p rest ih =>
    intro k v h
    obtain ⟨k', v'⟩ := p
    simp only [List.map_cons, List.nodup_cons] at h
    by_cases hk : k' = k
    · subst hk
      simp only [mapSet, beq_self_eq_true, if_true, List.map_cons, List.nodup_cons]
      exact h
    · simp only [mapSet, beq_iff_eq, if_neg hk, List.map_cons, List.nodup_cons]
      refine ⟨fun hmem => ?_, ih k v h.2⟩
      rcases (mapSet_keys_mem k' rest k v).mp hmem with h1 | h1
      · exact h.1 h1
      · exact hk h1

lemma mapGet_mapSet_self : ∀ (m : List (String × Nat)) (k : String) (v : Nat),
    mapGet (mapSet m k v) k = v := by
  intro m
  induction m with
  | nil => intro k v; simp [mapSet, mapGet]
  | cons p rest ih =>
    intro k v
    obtain ⟨k', v'⟩ := p
    by_cases h : k' = k
    · subst h; simp [mapSet, mapGet]
    · simp only [mapSet, beq_iff_eq, if_neg h, mapGet, ih]

lemma mapGet_mapSet_ne : ∀ (m : List (String × Nat)) (k : String) (v : Nat) (a : String),
    ¬k = a → mapGet (mapSet m k v) a = mapGet m a := by
  intro m
  induction m with
  | nil => intro k v a h; simp [mapSet, mapGet, h]
  | cons p rest ih =>
    intro k v a h
    obtain ⟨k', v'⟩ := p
    by_cases hk : k' = k
    · subst hk
      simp only [mapSet, beq_self_eq_true, if_true, mapGet, beq_iff_eq, if_neg h]
    · simp only [mapSet, beq_iff_eq, if_neg hk, mapGet]
      by_cases ha : k' = a
      · simp [ha]
      · simp only [if_neg ha, ih k v a h]

/-! ### Reviewer-loop lemmas -/

lemma addReviewers_keys (author : String) :
    ∀ (us : List (Option String)) (scores scores' : List (String × Nat)),
      addReviewers author us scores = .ok scores' →
      ∀ k ∈ scores'.map Prod.fst,
        k ∈ scores.map Prod.fst ∨ (some k ∈ us ∧ lowerEq k author = false) := by
  intro us
  induction us with
  | nil =>
    intro scores scores' h k hk
    simp only [addReviewers, Except.ok.injEq] at h
    subst h
    exact Or.inl hk
  | cons u rest ih =>
    intro scores scores' h k hk
    cases u with
    | none => simp [addReviewers] at h
    | some r =>
      simp only [addReviewers] at h
      by_cases hr : lowerEq r author
      · rw [if_pos hr] at h
        rcases ih scores scores' h k hk with h1 | ⟨h1, h2⟩
        · exact Or.inl h1
        · exact Or.inr ⟨List.mem_cons_of_mem _ h1, h2⟩
      · rw [if_neg hr] at h
        rcases ih _ scores' h k hk with h1 | ⟨h1, h2⟩
        · rcases (mapSet_keys_mem k scores r _).mp h1 with h2 | h2
          · exact Or.inl h2
          · subst h2
            exact Or.inr ⟨List.mem_cons_self _ _, Bool.eq_false_iff.mpr hr⟩
        · exact Or.inr ⟨List.mem_cons_of_mem _ h1, h2⟩

lemma addReviewers_keys_nodup (author : String) :
    ∀ (us : List (Option String)) (scores scores' : List (String × Nat)),
      addReviewers author us scores = .ok scores' →
      (scores.map Prod.fst).Nodup → (scores'.map Prod.fst).Nodup := by
  intro us
  induction us with
  | nil =>
    intro scores scores' h hn
    simp only [addReviewers, Except.ok.injEq] at h
    subst h; exact hn
  | cons u rest ih =>
    intro scores scores' h hn
    cases u with
    | none => simp [addReviewers] at h
    | some r =>
      simp only [addReviewers] at h
      by_cases hr : lowerEq r author
      · rw [if_pos hr] at h
        exact ih scores scores' h hn
      · rw [if_neg hr] at h
        exact ih _ scores' h (mapSet_keys_nodup scores r _ hn)

lemma addReviewers_get (author r : String) (hr : lowerEq r author = false) :
    ∀ (us : List (Option String)) (scores scores' : List (String × Nat)),
      addReviewers author us scores = .ok scores' →
      mapGet scores' r = mapGet scores r + us.count (some r) := by
  intro us
  induction us with
  | nil =>
    intro scores scores' h
    simp only [addReviewers, Except.ok.injEq] at h
    subst h; simp
  | cons u rest ih =>
    intro scores scores' h
    cases u with
    | none => simp [addReviewers] at h
    | some u =>
      simp only [addReviewers] at h
      rw [List.count_cons]
      by_cases hu : lowerEq u author
      · rw [if_pos hu] at h
        have hne : ¬(some u == some (r : String)) = true := by
          simp only [beq_iff_eq, Option.some.injEq]
          intro he; subst he; rw [hu] at hr; exact Bool.noConfusion hr
        rw [if_neg hne]
        simpa using ih scores scores' h
      · rw [if_neg hu] at h
        have hrec := ih _ scores' h
        by_cases hur : u = r
        · subst hur
          rw [hrec, mapGet_mapSet_self]
          simp; omega
        · rw [hrec, mapGet_mapSet_ne scores u _ r hur]
          have : ¬(some u == some r) = true := by simp [hur]
          rw [if_neg this]
          omega

/-! ### Rule-loop lemmas -/

lemma anyPatternMatches_arr_ok (f : String) : ∀ (l : List String),
    ∃ b, anyPatternMatches f (l.map some) = .ok b := by
  intro l
  induction l with
  | nil => exact ⟨false, rfl⟩
  | cons p rest ih =>
    simp only [List.map_cons, anyPatternMatches]
    by_cases h : matchPattern f p
    · exact ⟨true, by rw [if_pos h]⟩
    · obtain ⟨b, hb⟩ := ih
      exact ⟨b, by rw [if_neg h]; exact hb⟩

lemma ruleMatched_arr_ok (l : List String) : ∀ (files : List String),
    ∃ b, ruleMatched (l.map some) files = .ok b := by
  intro files
  induction files with
  | nil => exact ⟨false, rfl⟩
  | cons f fs ih =>
    simp only [ruleMatched]
    obtain ⟨b, hb⟩ := anyPatternMatches_arr_ok f l
    cases b with
    | true => exact ⟨true, by rw [hb]⟩
    | false =>
      obtain ⟨b2, hb2⟩ := ih
      exact ⟨b2, by rw [hb]; exact hb2⟩

lemma ruleMatched_nil_pats : ∀ (files : List String),
    ruleMatched [] files = .ok false := by
  intro files
  induction files with
  | nil => rfl
  | cons f fs ih => simp only [ruleMatched, anyPatternMatches]; exact ih

/-! ### Rule-set lemmas -/

lemma evalRules_keys (files : List String) (author : String) :
    ∀ (rules : List Rule) (scores scores' : List (String × Nat)),
      evalRules files author rules scores = .ok scores' →
      ∀ k ∈ scores'.map Prod.fst,
        k ∈ scores.map Prod.fst ∨
          ∃ ru ∈ rules, ruleMatched (normalize ru.patterns) files = .ok true ∧
            some k ∈ normalize ru.users ∧ lowerEq k author = false := by
  intro rules
  induction rules with
  | nil =>
    intro scores scores' h k hk
    simp only [evalRules, Except.ok.injEq] at h
    subst h; exact Or.inl hk
  | cons ru rest ih =>
    intro scores scores' h k hk
    simp only [evalRules] at h
    cases hm : ruleMatched (normalize ru.patterns) files with
    | error e => rw [hm] at h; cases h
    | ok b =>
      rw [hm] at h
      cases b with
      | false =>
        rcases ih scores scores' h k hk with h1 | ⟨ru2, hru2, hrest⟩
        · exact Or.inl h1
        · exact Or.inr ⟨ru2, List.mem_cons_of_mem _ hru2, hrest⟩
      | true =>
        cases ha : addReviewers author (normalize ru.users) scores with
        | error e => rw [ha] at h; cases h
        | ok scores2 =>
          rw [ha] at h
          rcases ih scores2 scores' h k hk with h1 | ⟨ru2, hru2, hrest⟩
          · rcases addReviewers_keys author _ scores scores2 ha k h1 with h2 | ⟨h2, h3⟩
            · exact Or.inl h2
            · exact Or.inr ⟨ru, List.mem_cons_self _ _, hm, h2, h3⟩
          · exact Or.inr ⟨ru2, List.mem_cons_of_mem _ hru2, hrest⟩

lemma evalRules_keys_nodup (files : List String) (author : String) :
    ∀ (rules : List Rule) (scores scores' : List (String × Nat)),
      evalRules files author rules scores = .ok scores' →
      (scores.map Prod.fst).Nodup → (scores'.map Prod.fst).Nodup := by
  intro rules
  induction rules with
  | nil =>
    intro scores scores' h hn
    simp only [evalRules, Except.ok.injEq] at h
    subst h; exact hn
  | cons ru rest ih =>
    intro scores scores' h hn
    simp only [evalRules] at h
    cases hm : ruleMatched (normalize ru.patterns) files with
    | error e => rw [hm] at h; cases h
    | ok b =>
      rw [hm] at h
      cases b with
      | false => exact ih scores scores' h hn
      | true =>
        cases ha : addReviewers author (normalize ru.users) scores with
        | error e => rw [ha] at h; cases h
        | ok scores2 =>
          rw [ha] at h
          exact ih scores2 scores' h (addReviewers_keys_nodup author _ scores scores2 ha hn)

/-! ### Resolver lemmas -/

lemma insertByScore_perm (x : String × Nat) : ∀ (l : List (String × Nat)),
    (insertByScore x l).Perm (x :: l) := by
  intro l
  induction l with
  | nil => exact List.Perm.refl _
  | cons y ys ih =>
    simp only [insertByScore]
    by_cases h : y.2 > x.2
    · rw [if_pos h]
      exact (ih.cons y).trans (List.Perm.swap x y ys)
    · rw [if_neg h]

lemma sortScores_perm : ∀ (l : List (String × Nat)), (sortScores l).Perm l := by
  intro l
  induction l with
  | nil => exact List.Perm.refl _
  | cons x xs ih =>
    exact (insertByScore_perm x (sortScores xs)).trans (ih.cons x)

lemma jsSlice0_sublist (l : List String) (m : Int) : (jsSlice0 l m).Sublist l := by
  unfold jsSlice0
  by_cases h : 0 ≤ m
  · rw [if_pos h]; exact List.take_sublist _ _
  · rw [if_neg h]; exact List.take_sublist _ _

lemma jsSlice0_length_le (l : List String) (m : Int) (h : 0 ≤ m) :
    (jsSlice0 l m).length ≤ m.toNat := by
  unfold jsSlice0
  rw [if_pos h]
  simp

lemma jsSlice0_zero (l : List String) : jsSlice0 l 0 = [] := by
  unfold jsSlice0
  simp

/-- Case analysis on a successful `run`: the output comes from the sorted
score table when it is non-empty, and from the filtered defaults (or is
empty) otherwise. -/
lemma run_ok_cases (files : List String) (rules : List Rule)
    (defaults : Option (List String)) (author : String) (maxR : Int)
    (out : List String) (h : run files rules defaults author maxR = .ok out) :
    ∃ scores, evalRules files author rules [] = .ok scores ∧
      ((scores = [] ∧
        ((∃ ds, defaults = some ds ∧
            out = jsSlice0 (ds.filter (fun r => !(lowerEq r author))) maxR) ∨
          (defaults = none ∧ out = []))) ∨
        (scores ≠ [] ∧ out = jsSlice0 ((sortScores scores).map Prod.fst) maxR)) := by
  unfold run at h
  split at h
  · exact absurd h (by simp)
  · next scores heq =>
    refine ⟨scores, heq, ?_⟩
    split at h
    · next hemp =>
      refine Or.inl ⟨List.isEmpty_iff.mp hemp, ?_⟩
      cases defaults with
      | some ds => exact Or.inl ⟨ds, rfl, (Except.ok.inj h).symm⟩
      | none => exact Or.inr ⟨rfl, (Except.ok.inj h).symm⟩
    · next hemp =>
      refine Or.inr ⟨fun hnil => hemp (by simp [hnil]), (Except.ok.inj h).symm⟩

/-! ### The claims -/

/-- C1 counterexample: `matchPattern` does not let `**` absorb zero path
segments — the pattern `a/**/b` fails to match the path `a/b`, because the
globstar becomes `.*` between two literal `/` characters, so at least one
character must stand between the separators. -/
theorem C1_counterexample : matchPattern "a/b" "a/**/b" = false := by rfl

/-- C1 (amended): `**` matches across directory boundaries — `a/**/b` matches
`a/x/b` and `a/x/y/b` — but a globstar standing between two separators must
absorb at least one character, so `a/**/b` does not match `a/b`. -/
theorem C1_globstar_spans_segments :
    matchPattern "a/x/b" "a/**/b" = true ∧
    matchPattern "a/x/y/b" "a/**/b" = true ∧
    matchPattern "a/b" "a/**/b" = false :=
  ⟨by rfl, by rfl, by rfl⟩

/-- C2 counterexample: a rule matches the changed file `f`, but its only user
is the PR author, so the score table stays empty and the output `["d"]` is
drawn from the defaults — which the claim says can never happen once a rule
matches. -/
theorem C2_counterexample :
    ruleMatched (normalize (JSField.arr ["f"])) ["f"] = .ok true ∧
    run ["f"] [⟨JSField.arr ["f"], JSField.arr ["author"]⟩] (some ["d"]) "author" 5
      = .ok ["d"] ∧
    ¬ some "d" ∈ normalize (JSField.arr ["author"]) :=
  ⟨by rfl, by rfl, by decide⟩

/-- C2 (amended): when the score table is non-empty — i.e. some matching rule
contributed at least one non-author user — every reviewer in the output comes
from the users of a rule that matched, and the defaults are never consulted.
(When every user of every matching rule is the excluded author, the score
table is empty and the code does fall back to the defaults.) -/
theorem C2_matched_rules_only (files : List String) (rules : List Rule)
    (defaults : Option (List String)) (author : String) (maxR : Int)
    (scores : List (String × Nat)) (out : List String)
    (hs : evalRules files author rules [] = .ok scores) (hne : scores ≠ [])
    (hr : run files rules defaults author maxR = .ok out) :
    ∀ r ∈ out, ∃ ru ∈ rules,
      ruleMatched (normalize ru.patterns) files = .ok true ∧
        some r ∈ normalize ru.users := by
  intro r hrout
  obtain ⟨scores2, hs2, hc⟩ := run_ok_cases files rules defaults author maxR out hr
  rw [hs] at hs2
  obtain rfl := Except.ok.inj hs2
  rcases hc with ⟨hnil, -⟩ | ⟨-, hout⟩
  · exact absurd hnil hne
  · subst hout
    have h1 : r ∈ (sortScores scores).map Prod.fst :=
      (jsSlice0_sublist _ maxR).subset hrout
    have h2 : r ∈ scores.map Prod.fst :=
      (((sortScores_perm scores).map Prod.fst).mem_iff).mp h1
    rcases evalRules_keys files author rules [] scores hs r h2 with h3 | ⟨ru, hru, hm, hu, -⟩
    · simp at h3
    · exact ⟨ru, hru, hm, hu⟩

/-- C2 witness for `C2_matched_rules_only` at a concrete input. -/
theorem C2_witness :
    ∃ ru ∈ [(⟨JSField.arr ["f"], JSField.arr ["alice"]⟩ : Rule)],
      ruleMatched (normalize ru.patterns) ["f"] = .ok true ∧
        some "alice" ∈ normalize ru.users :=
  C2_matched_rules_only ["f"] [⟨JSField.arr ["f"], JSField.arr ["alice"]⟩]
    none "bob" 5 [("alice", 1)] ["alice"] (by rfl) (by simp) (by rfl)
    "alice" (by simp)

/-- C3: the PR author, compared case-insensitively, never appears in the
output list, whether it was produced from rule matches or from defaults. -/
theorem C3_author_never_assigned (files : List String) (rules : List Rule)
    (defaults : Option (List String)) (author : String) (maxR : Int)
    (out : List String) (h : run files rules defaults author maxR = .ok out) :
    ∀ r ∈ out, lowerEq r author = false := by
  intro r hrout
  obtain ⟨scores, hs, hc⟩ := run_ok_cases files rules defaults author maxR out h
  rcases hc with ⟨hnil, hdef⟩ | ⟨hne, hout⟩
  · rcases hdef with ⟨ds, hds, hout⟩ | ⟨hds, hout⟩
    · subst hout
      have h1 := (jsSlice0_sublist _ maxR).subset hrout
      have h2 := (List.mem_filter.mp h1).2
      simpa using h2
    · subst hout; cases hrout
  · subst hout
    have h1 : r ∈ (sortScores scores).map Prod.fst :=
      (jsSlice0_sublist _ maxR).subset hrout
    have h2 : r ∈ scores.map Prod.fst :=
      (((sortScores_perm scores).map Prod.fst).mem_iff).mp h1
    rcases evalRules_keys files author rules [] scores hs r h2 with h3 | ⟨-, -, -, -, h4⟩
    · simp at h3
    · exact h4

/-- C3 witness for `C3_author_never_assigned` at a concrete input. -/
theorem C3_witness : lowerEq "alice" "bob" = false :=
  C3_author_never_assigned ["f"] [⟨JSField.arr ["f"], JSField.arr ["alice"]⟩]
    none "bob" 5 ["alice"] (by rfl) "alice" (by simp)

/-- C4 counterexample: when no rule matches and the defaults list contains
the same candidate twice, the returned defaults list keeps the duplicate —
the code never deduplicates the defaults branch. -/
theorem C4_counterexample :
    run [] [] (some ["d", "d"]) "x" 5 = .ok ["d", "d"] ∧
    ¬ (["d", "d"] : List String).Nodup :=
  ⟨by rfl, by decide⟩

/-- C4 (amended): the output of the rule-match branch never contains
duplicates (the score map has unique keys); the defaults branch is
duplicate-free exactly when the configured defaults list itself is, so under
the assumption that the defaults list has no duplicates the whole result is
duplicate-free. -/
theorem C4_nodup (files : List String) (rules : List Rule)
    (defaults : Option (List String)) (author : String) (maxR : Int)
    (out : List String) (hd : ∀ ds, defaults = some ds → ds.Nodup)
    (h : run files rules defaults author maxR = .ok out) : out.Nodup := by
  obtain ⟨scores, hs, hc⟩ := run_ok_cases files rules defaults author maxR out h
  rcases hc with ⟨hnil, hdef⟩ | ⟨hne, hout⟩
  · rcases hdef with ⟨ds, hds, hout⟩ | ⟨hds, hout⟩
    · subst hout
      exact (jsSlice0_sublist _ maxR).nodup ((hd ds hds).filter _)
    · subst hout; exact List.nodup_nil
  · subst hout
    have hkeys : (scores.map Prod.fst).Nodup :=
      evalRules_keys_nodup files author rules [] scores hs (by simp)
    have hsorted : ((sortScores scores).map Prod.fst).Nodup :=
      (((sortScores_perm scores).map Prod.fst).symm).nodup hkeys
    exact (jsSlice0_sublist _ maxR).nodup hsorted

/-- C4 witness for `C4_nodup` at a concrete input. -/
theorem C4_witness : (["a", "b"] : List String).Nodup :=
  C4_nodup ["f"] [⟨JSField.arr ["f"], JSField.arr ["a", "b"]⟩] none "x" 5
    ["a", "b"] (fun ds h => nomatch h) (by rfl)

/-- C5 counterexample: with `maxReviewers = -1` the result is not empty —
`Array.prototype.slice(0, -1)` drops one element from the end instead of
returning an empty list, so three defaults yield two reviewers. -/
theorem C5_counterexample :
    run [] [] (some ["a", "b", "c"]) "x" (-1) = .ok ["a", "b"] ∧
    (["a", "b"] : List String) ≠ [] :=
  ⟨by rfl, by decide⟩

/-- C5 (amended): for every non-negative `maxReviewers` the output has length
at most `maxReviewers`, and for `maxReviewers = 0` it is empty.  (For
negative values, `slice(0, max)` counts the end index from the end of the
candidate list, so the result can be non-empty.) -/
theorem C5_bounded (files : List String) (rules : List Rule)
    (defaults : Option (List String)) (author : String) (maxR : Int)
    (out : List String) (hm : 0 ≤ maxR)
    (h : run files rules defaults author maxR = .ok out) :
    out.length ≤ maxR.toNat ∧ (maxR = 0 → out = []) := by
  obtain ⟨scores, hs, hc⟩ := run_ok_cases files rules defaults author maxR out h
  rcases hc with ⟨hnil, hdef⟩ | ⟨hne, hout⟩
  · rcases hdef with ⟨ds, hds, hout⟩ | ⟨hds, hout⟩
    · subst hout
      exact ⟨jsSlice0_length_le _ maxR hm, fun h0 => by rw [h0]; exact jsSlice0_zero _⟩
    · subst hout; exact ⟨by simp, fun _ => rfl⟩
  · subst hout
    exact ⟨jsSlice0_length_le _ maxR hm, fun h0 => by rw [h0]; exact jsSlice0_zero _⟩

/-- C5 witness for `C5_bounded` at a concrete input. -/
theorem C5_witness :
    (["a"] : List String).length ≤ (5 : Int).toNat ∧ ((5 : Int) = 0 → ["a"] = []) :=
  C5_bounded ["f"] [⟨JSField.arr ["f"], JSField.arr ["a"]⟩] none "x" 5
    ["a"] (by decide) (by rfl)

/-- C6: the claim is right and the code is wrong.  A pattern beginning with
`/` is supposed to anchor at the repository root, but `matchPattern` never
prepends `^` for such patterns — it only omits the `(^|/)` prefix — so the
compiled regex `/src/a\.js$` is a bare suffix match: it accepts
`foo/src/a.js` and even rejects the root path `src/a.js` itself (which lacks
a leading `/`). -/
theorem C6_root_anchor_bug :
    matchPattern "foo/src/a.js" "/src/a.js" = true ∧
    matchPattern "src/a.js" "/src/a.js" = false :=
  ⟨by rfl, by rfl⟩

/-- C7 counterexample: a matched rule listing the same candidate twice
increments that candidate's score once per occurrence — the score ends up 2,
not 1. -/
theorem C7_counterexample :
    evalRules ["f"] "bob" [⟨JSField.arr ["f"], JSField.arr ["alice", "alice"]⟩] []
      = .ok [("alice", 2)] ∧
    mapGet [("alice", 2)] "alice" = 2 :=
  ⟨by rfl, by rfl⟩

/-- C7 (amended): a matched rule contributes one point per occurrence of a
candidate in its users list — the candidate's score after a single matched
rule equals the number of times the rule lists that candidate, so a
twice-listed candidate scores 2. -/
theorem C7_per_occurrence (files : List String) (author : String) (ru : Rule)
    (scores : List (String × Nat)) (r : String)
    (h1 : ruleMatched (normalize ru.patterns) files = .ok true)
    (h2 : evalRules files author [ru] [] = .ok scores)
    (h3 : lowerEq r author = false) :
    mapGet scores r = (normalize ru.users).count (some r) := by
  simp only [evalRules, h1] at h2
  cases ha : addReviewers author (normalize ru.users) [] with
  | error e => rw [ha] at h2; cases h2
  | ok scores2 =>
    rw [ha] at h2
    simp only [evalRules, Except.ok.injEq] at h2
    subst h2
    have := addReviewers_get author r h3 (normalize ru.users) [] scores2 ha
    rw [this]
    simp [mapGet]

/-- C7 witness for `C7_per_occurrence` at a concrete input. -/
theorem C7_witness :
    mapGet [("alice", 2)] "alice"
      = (normalize (JSField.arr ["alice", "alice"])).count (some "alice") :=
  C7_per_occurrence ["f"] "bob" ⟨JSField.arr ["f"], JSField.arr ["alice", "alice"]⟩
    [("alice", 2)] "alice" (by rfl) (by rfl) (by decide)

/-- C8 counterexample: a rule whose `patterns` (or `users`) field is missing
(`undefined`) does not degrade gracefully — `undefined` is wrapped into
`[undefined]`, reaches `matchPattern`/`toLowerCase`, and the thrown
`TypeError` aborts the whole evaluation (the action fails), so the remaining
rules are never evaluated and no result is produced. -/
theorem C8_counterexample :
    run ["f"] [⟨JSField.undef, JSField.arr ["a"]⟩, ⟨JSField.arr ["f"], JSField.arr ["b"]⟩]
      none "x" 5 = .error () ∧
    run ["f"] [⟨JSField.arr ["f"], JSField.undef⟩] none "x" 5 = .error () :=
  ⟨by rfl, by rfl⟩

/-- C8 (amended): a rule with an *empty* (but present) `patterns` or `users`
list degrades gracefully — it contributes no matches and no score
increments, and evaluation continues with the remaining rules exactly as if
the rule were absent.  A rule with a *missing* (`undefined`) field instead
throws once the field is consulted, failing the whole evaluation. -/
theorem C8_empty_fields_graceful :
    (∀ (files : List String) (author : String) (u : JSField) (rest : List Rule)
        (scores : List (String × Nat)),
      evalRules files author (⟨JSField.arr [], u⟩ :: rest) scores
        = evalRules files author rest scores) ∧
    (∀ (files : List String) (author : String) (l : List String) (rest : List Rule)
        (scores : List (String × Nat)),
      evalRules files author (⟨JSField.arr l, JSField.arr []⟩ :: rest) scores
        = evalRules files author rest scores) := by
  constructor
  · intro files author u rest scores
    simp only [evalRules, normalize, List.map_nil, ruleMatched_nil_pats files]
  · intro files author l rest scores
    obtain ⟨b, hb⟩ := ruleMatched_arr_ok l files
    simp only [evalRules, normalize, hb]
    cases b with
    | false => rfl
    | true => simp only [List.map_nil, addReviewers]

/-- C9: `matchPattern` is a total boolean function of its two string inputs
(the embedding is a terminating total function, and no exception path exists
for string inputs), and every character other than the wildcards `*` and `?`
— including regex metacharacters such as `.`, `(`, `[`, `+`, which the source
escapes — matches only itself: a wildcard-free pattern matches exactly by
literal comparison, as a whole-path or after-separator suffix (or an
arbitrary suffix for `/`-led patterns). -/
theorem C9_total_and_literal (f p : String) (h : wildcardFree p = true) :
    matchPattern f p = true ↔
      (if startsWithSlash p = true then p.toList <:+ f.toList
        else f.toList = p.toList ∨ ∃ a, f.toList = a ++ '/' :: p.toList) := by
  have hwf : ∀ c ∈ p.toList, ¬c = '*' ∧ ¬c = '?' := by
    intro c hc
    have := List.all_eq_true.mp h c hc
    simp only [Bool.and_eq_true, Bool.not_eq_true', beq_eq_false_iff_ne, ne_eq] at this
    exact this
  have hcg : compileGlob p.toList = p.toList.map GlobTok.lit := compileGlob_lits _ hwf
  unfold matchPattern
  by_cases hs : startsWithSlash p = true
  · rw [if_pos hs, if_pos hs, hcg, searchTest_iff]
    constructor
    · rintro ⟨t, ht, hm⟩
      rwa [toksMatch_map_lit p.toList t |>.mp hm] at ht
    · intro ht
      exact ⟨p.toList, ht, (toksMatch_map_lit p.toList p.toList).mpr rfl⟩
  · rw [if_neg hs, if_neg hs, hcg]
    unfold segTest
    rw [Bool.or_eq_true, segAux_iff, toksMatch_map_lit]
    constructor
    · rintro (he | ⟨a, b, he, hm⟩)
      · exact Or.inl he
      · exact Or.inr ⟨a, by rw [he, (toksMatch_map_lit p.toList b).mp hm]⟩
    · rintro (he | ⟨a, ha⟩)
      · exact Or.inl he
      · exact Or.inr ⟨a, p.toList, ha, (toksMatch_map_lit p.toList p.toList).mpr rfl⟩

/-- C9 witness for `C9_total_and_literal` at a concrete input: the `.` in the
pattern `a.js` is escaped, so the match reduces to a literal suffix test. -/
theorem C9_witness :
    wildcardFree "a.js" = true ∧
    (matchPattern "x/a.js" "a.js" = true ↔
      (if startsWithSlash "a.js" = true then ("a.js").toList <:+ ("x/a.js").toList
        else ("x/a.js").toList = ("a.js").toList ∨
          ∃ a, ("x/a.js").toList = a ++ '/' :: ("a.js").toList)) :=
  ⟨by rfl, C9_total_and_literal "x/a.js" "a.js" (by rfl)⟩

/-- C10: candidate identity in scoring and output is case-sensitive while
author exclusion is case-insensitive: two rules listing `Alice` and `alice`
accumulate two separate scores of 1 and both spellings appear verbatim in the
output, yet an author named `ALICE` excludes both spellings and empties the
score table. -/
theorem C10_case_sensitivity :
    evalRules ["f"]
        "bob" [⟨JSField.arr ["f"], JSField.arr ["Alice"]⟩,
          ⟨JSField.arr ["f"], JSField.arr ["alice"]⟩] []
      = .ok [("Alice", 1), ("alice", 1)] ∧
    run ["f"]
        [⟨JSField.arr ["f"], JSField.arr ["Alice"]⟩,
          ⟨JSField.arr ["f"], JSField.arr ["alice"]⟩] none "bob" 5
      = .ok ["Alice", "alice"] ∧
    run ["f"]
        [⟨JSField.arr ["f"], JSField.arr ["Alice"]⟩,
          ⟨JSField.arr ["f"], JSField.arr ["alice"]⟩] none "ALICE" 5
      = .ok [] ∧
    ("Alice" : String) ≠ "alice" :=
  ⟨by rfl, by rfl, by rfl, by decide⟩

end AutoAssign

